import Mathlib

/-!
Shallow embedding of the special-character restoration tool
(`special_character_replacer/__main__.py`).

Strings are modelled as `List Char`.  The Python Unicode string operations
(`str.lower`, `str.upper`, `str.casefold`, `str.isupper`, the `\w` word-character
class and the `str.splitlines` boundaries) are modelled faithfully on the
alphabet the tool works over: ASCII characters plus the German special letters
ä, ö, ü, ß and their uppercase forms Ä, Ö, Ü, ẞ.  In particular
`casefold` maps both 'ß' and 'ẞ' to the two-character sequence "ss"
(a one-to-many folding), while `lower` keeps 'ß' and maps 'ẞ' to 'ß',
and `'ß'.upper()` is the two-character string "SS" — these are exactly the
CPython behaviours that matter for the program's control flow.

Fallible Python code (exceptions: `IndexError` from `iterable[-1]` on an empty
list, `AssertionError` from `assert`, `ValueError` and `KeyError`) is modelled
with `Except PyErr`.
-/

inductive PyErr where
  | indexError
  | assertionError
  | valueError
  | keyError
deriving DecidableEq, Repr

/-- A Python string, modelled as a list of characters. -/
abbrev Word := List Char

/-- A regex match span `(start, end)`, half-open, as returned by `re.Match.span()`. -/
abbrev Span := Nat × Nat

/-- The lowercase ASCII letters; alternative-spelling patterns ("ae", "oe",
"ue", "ss") consist of these after `casefold`. -/
def asciiLowers : List Char :=
  ['a','b','c','d','e','f','g','h','i','j','k','l','m',
   'n','o','p','q','r','s','t','u','v','w','x','y','z']

/-- Python `str.lower()` on one character, restricted to the modelled alphabet:
ASCII uppercase maps to lowercase, 'Ä'→'ä', 'Ö'→'ö', 'Ü'→'ü', 'ẞ'→'ß',
everything else (including 'ß') is unchanged. -/
def pyLower (c : Char) : Char :=
  if c = 'Ä' then 'ä'
  else if c = 'Ö' then 'ö'
  else if c = 'Ü' then 'ü'
  else if c = 'ẞ' then 'ß'
  else if c.isUpper then c.toLower
  else c

/-- Python `str.lower()` on a string. -/
def pyLowerStr (s : Word) : Word := s.map pyLower

/-- Python `str.upper()` on one character.  CPython maps 'ß' to the TWO
characters "SS"; the other modelled characters map one-to-one. -/
def pyUpperChar (c : Char) : Word :=
  if c = 'ß' then ['S','S']
  else if c = 'ä' then ['Ä']
  else if c = 'ö' then ['Ö']
  else if c = 'ü' then ['Ü']
  else if c.isLower then [c.toUpper]
  else [c]

/-- Python `str.upper()` on a string. -/
def pyUpperStr (s : Word) : Word := s.flatMap pyUpperChar

/-- Python `str.isupper()` on one character (`letter.isupper()` in the source),
restricted to the modelled alphabet. -/
def pyIsUpper (c : Char) : Bool :=
  c.isUpper || c = 'Ä' || c = 'Ö' || c = 'Ü' || c = 'ẞ'

/-- Python `str.casefold()` on one character: like `lower`, except that 'ß'
and 'ẞ' fold to the two-character sequence "ss". -/
def cfChar (c : Char) : Word :=
  if c = 'ß' ∨ c = 'ẞ' then ['s','s'] else [pyLower c]

/-- Python `str.casefold()` on a string. -/
def casefoldStr (s : Word) : Word := s.flatMap cfChar

/-- Python's `\w` word-character class (`re.UNICODE`), restricted to the
modelled alphabet: ASCII alphanumerics, underscore and the German specials. -/
def isWordChar (c : Char) : Bool :=
  c.isAlphanum || c = '_' ||
  c = 'ä' || c = 'ö' || c = 'ü' || c = 'ß' ||
  c = 'Ä' || c = 'Ö' || c = 'Ü' || c = 'ẞ'

/-- The line-boundary characters of Python `str.splitlines` ('\r\n' is handled
as a single boundary separately). -/
def isLineBreak (c : Char) : Bool :=
  c = '\n' || c = '\r' || c = '\x0b' || c = '\x0c' ||
  c = '\x1c' || c = '\x1d' || c = '\x1e' || c = '\x85' ||
  c = '\u2028' || c = '\u2029'

/-- Bool test that `needle` is a leading segment of `hay` (used for Python's
substring operator `in`). -/
def prefixEqB : Word → Word → Bool
  | [], _ => true
  | _ :: _, [] => false
  | a :: as, b :: bs => a == b && prefixEqB as bs

/-- Python's substring test `needle in hay`. -/
def seqContains (needle : Word) : Word → Bool
  | [] => prefixEqB needle []
  | c :: rest => prefixEqB needle (c :: rest) || seqContains needle rest

/-- Source `cf_contains(element, string)`: casefolded substring containment. -/
def cf_contains (element : Word) (string : Word) : Bool :=
  seqContains (casefoldStr element) (casefoldStr string)

/-- One pattern character matched under `re.IGNORECASE`: simple per-character
case folding (`lower` on both sides), as CPython's `sre` does for the modelled
alphabet.  Note this does NOT let the two-character pattern "ss" match the
single character 'ß' — exactly as in CPython. -/
def charIMatch (p c : Char) : Bool := pyLower p == pyLower c

/-- Case-insensitive match of the literal pattern `pat` at the head of `s`. -/
def prefixIMatch : Word → Word → Bool
  | [], _ => true
  | _ :: _, [] => false
  | p :: ps, c :: cs => charIMatch p c && prefixIMatch ps cs

/-- Scanner for `re.finditer`: starting at index `i`, emit each leftmost
non-overlapping case-insensitive match of the literal pattern, resuming after
each match's end.  `fuel` only bounds the recursion; it is instantiated so it
never runs out. -/
def finditerAux (pat s : Word) : Nat → Nat → List Span
  | _, 0 => []
  | i, fuel + 1 =>
    if i ≥ s.length then []
    else if prefixIMatch pat (s.drop i) then
      (i, i + pat.length) :: finditerAux pat s (i + pat.length) fuel
    else finditerAux pat s (i + 1) fuel

/-- Source `re.finditer(regex, item)` for a literal pattern compiled with
`re.IGNORECASE`: the spans of all leftmost non-overlapping matches. -/
def finditer (pat s : Word) : List Span :=
  finditerAux pat s 0 (s.length + 1)

/-- Insertion into a Python `dict` modelled as an association list: an existing
key has its value replaced in place, a new key is appended (insertion order). -/
def dictInsert (m : List (Span × Word)) (k : Span) (v : Word) : List (Span × Word) :=
  if m.any (fun p => p.1 = k) then
    m.map (fun p => if p.1 = k then (k, v) else p)
  else m ++ [(k, v)]

/-- The keys of the span dictionary, in insertion order (Python dict iteration
order). -/
def spanMapKeys (m : List (Span × Word)) : List Span := m.map Prod.fst

/-- Python `m[k]` on the span dictionary (`None` models a `KeyError`). -/
def lookupSpan (m : List (Span × Word)) (k : Span) : Option Word :=
  match m with
  | [] => none
  | p :: rest => if p.1 = k then some p.2 else lookupSpan rest k

/-- Source span-finding loop building `spans_to_substitutions`: for each
`(special_letter, regex)` entry (keys already lowercased, patterns already
casefolded), for each match, store under the match's span the special letter
uppercased if the matched text contains an uppercase letter, else lowercased.
Crucially, `special_letter` is the LOOP VARIABLE and is reassigned in place,
so the upper/lower adjustment applies to the value carried over from the
previous match of the same entry, not to the canonical letter: after an
uppercase 'ß'-match stores 'ß'.upper() = "SS", a later lowercase match stores
"SS".lower() = "ss" — not 'ß'.  The inner fold therefore threads the current
`special_letter` alongside the dictionary. -/
def buildSpanMap (alts : List (Word × Word)) (item : Word) : List (Span × Word) :=
  alts.foldl
    (fun m lp =>
      ((finditer lp.2 item).foldl
        (fun (acc : List (Span × Word) × Word) sp =>
          let matched := (item.drop sp.1).take (sp.2 - sp.1)
          let letter := if matched.any pyIsUpper then pyUpperStr acc.2 else pyLowerStr acc.2
          (dictInsert acc.1 sp letter, letter))
        (m, lp.1)).1)
    []

/-- One choose-size slice of `itertools.combinations(iterable, r)`: all
subsequences of length `r`, in the lexicographic index order itertools uses. -/
def combinations : List α → Nat → List (List α)
  | _, 0 => [[]]
  | [], _ + 1 => []
  | x :: xs, r + 1 => (combinations xs r).map (fun c => x :: c) ++ combinations xs (r + 1)

/-- Source `combinations_any_length`: `for i, _ in enumerate(iterable, start=1)`
runs `itertools.combinations(iterable, r=i)` for `i = 1 .. len(iterable)` and
yields every combination. -/
def combinations_any_length (l : List α) : List (List α) :=
  (List.range l.length).flatMap (fun i => combinations l (i + 1))

/-- Stable insertion step of Python `sorted` (modelled as insertion sort, which
computes the same list as any stable sort). -/
def pyInsert (le : α → α → Bool) (a : α) : List α → List α
  | [] => [a]
  | b :: l => if le a b then a :: b :: l else b :: pyInsert le a l

/-- Python `sorted(iterable, key=...)`: stable ascending sort with respect to
the boolean comparison `le`. -/
def pySorted (le : α → α → Bool) : List α → List α
  | [] => []
  | x :: xs => pyInsert le x (pySorted le xs)

/-- Descending comparison used by `sorted(spans, reverse=True)`: lexicographic
tuple order on `(start, end)`, greatest first. -/
def spanDescB (a b : Span) : Bool :=
  b.1 < a.1 || (b.1 = a.1 && b.2 ≤ a.2)

/-- Source `distinct_highest_element(iterable, key)` (specialised to a
`Nat`-valued key, as used with `key=len`): sort ascending by the key, take the
last element, and return it only if its key strictly exceeds the second-last
element's key.  `iterable[-1]` on an empty list raises `IndexError`. -/
def distinct_highest_element (key : α → Nat) (iterable : List α) : Except PyErr (Option α) :=
  let sorted := pySorted (fun a b => key a ≤ key b) iterable
  match sorted.reverse with
  | [] => Except.error PyErr.indexError
  | [highest] => Except.ok (some highest)
  | highest :: second :: _ =>
    Except.ok (if key second < key highest then some highest else none)

/-- Source `substitute_spans(string, spans, spans_to_substitutions)`: sort the
spans in descending order and splice each span's replacement between the text
before its start and the text from its end (Python slices clamp, as do
`List.take`/`List.drop`).  A span absent from the mapping is a `KeyError`. -/
def substitute_spans (string : Word) (spans : List Span)
    (spans_to_substitutions : List (Span × Word)) : Except PyErr Word :=
  (pySorted spanDescB spans).foldlM
    (fun s sp =>
      match lookupSpan spans_to_substitutions sp with
      | none => Except.error PyErr.keyError
      | some sub => Except.ok (s.take sp.1 ++ sub ++ s.drop sp.2))
    string

/-- Total companion of `substitute_spans` (identical on every call the program
makes, where each span is a key of the mapping; see
`substitute_spans_eq_total`). -/
def substituteTotal (string : Word) (spans : List Span)
    (spans_to_substitutions : List (Span × Word)) : Word :=
  (pySorted spanDescB spans).foldl
    (fun s sp => s.take sp.1 ++ (lookupSpan spans_to_substitutions sp).getD [] ++ s.drop sp.2)
    string

/-- Source `represent_strings(strings, separator, delimiters)`: join multiple
strings with the separator and wrap them in the delimiters; a single string is
returned as-is (the delimiters are multiplied by `int(len(strings) > 1)`, and
two assertions re-check the single-string case). -/
def represent_strings (strings : List Word) (separator : Word)
    (delimiters : List Word) : Except PyErr Word :=
  if delimiters.length ≠ 2 then Except.error PyErr.valueError
  else
    let multiple := strings.length > 1
    let delims := delimiters.map (fun d => if multiple then d else [])
    match strings with
    | [s] =>
      if delims.any (fun d => !d.isEmpty) then Except.error PyErr.assertionError
      else if List.intercalate separator [s] ≠ s then Except.error PyErr.assertionError
      else Except.ok (delims.headD [] ++ List.intercalate separator [s] ++ delims.getLastD [])
    | _ => Except.ok (delims.headD [] ++ List.intercalate separator strings ++ delims.getLastD [])

/-- The default separator of `represent_strings`. -/
def defaultSep : Word := ['|']

/-- The default delimiters of `represent_strings`. -/
def defaultDelims : List Word := [['['], [']']]

/-- Sequential effectful map over `Except`, modelling a Python list
comprehension whose body may raise. -/
def listMapE (f : α → Except PyErr β) : List α → Except PyErr (List β)
  | [] => Except.ok []
  | x :: xs => do
    let y ← f x
    let ys ← listMapE f xs
    Except.ok (y :: ys)

/-- Source `is_word`: `bool(re.match(word_regex, item))` — the item starts with
a word character. -/
def isWordTok (item : Word) : Bool :=
  match item with
  | [] => false
  | c :: _ => isWordChar c

/-- Source `is_special_word`: a word whose casefolded text contains some
pattern's casefolded text (the fast pre-check). -/
def isSpecialWord (alts : List (Word × Word)) (item : Word) : Bool :=
  isWordTok item && alts.any (fun lp => cf_contains lp.2 item)

/-- The per-token body of `main`'s inner loop: pre-check, span finding,
combination generation, candidate substitution, then forced selection or
dictionary filtering, falling back to the unmodified item. -/
def processItem (alts : List (Word × Word)) (known : List Word) (forced : Bool)
    (item : Word) : Except PyErr Word :=
  if isSpecialWord alts item then do
    let m := buildSpanMap alts item
    let span_combinations := combinations_any_length (spanMapKeys m)
    let candidates ← listMapE (fun spans => substitute_spans item spans m) span_combinations
    if forced then do
      let mostOpt ← distinct_highest_element List.length span_combinations
      match mostOpt with
      | none => Except.error PyErr.assertionError
      | some most =>
        if most = [] then Except.error PyErr.assertionError
        else do
          let word ← substitute_spans item most m
          if word = [] then Except.error PyErr.assertionError
          else represent_strings [word] defaultSep defaultDelims
    else
      let legal := candidates.filter
        (fun c => known.contains c || known.contains (pyLowerStr c))
      if legal.isEmpty then Except.ok item
      else represent_strings legal defaultSep defaultDelims
  else Except.ok item

/-- Source `re.split(word_regex, line)` with the single capture group `(\\w+)`:
the items alternate between (possibly empty) non-word chunks and maximal
word-character runs, starting and ending with a non-word chunk.  `fuel` only
bounds the recursion and is instantiated large enough never to run out. -/
def splitWordsAux : Nat → Word → List Word
  | 0, _ => []
  | fuel + 1, l =>
    match l.dropWhile (fun c => !isWordChar c) with
    | [] => [l.takeWhile (fun c => !isWordChar c)]
    | c :: cs =>
      l.takeWhile (fun c => !isWordChar c) ::
        (c :: cs).takeWhile isWordChar ::
        splitWordsAux fuel ((c :: cs).dropWhile isWordChar)

def splitWords (l : Word) : List Word := splitWordsAux (l.length + 1) l

/-- Helper for Python `str.splitlines`: `acc` is the current line, reversed.
A '\r\n' pair is one boundary; a trailing fragment is emitted only if
nonempty.  `fuel` only bounds the recursion and is instantiated large enough
never to run out. -/
def splitlinesGoAux : Nat → Word → Word → List Word
  | 0, _, _ => []
  | _ + 1, [], acc => if acc.isEmpty then [] else [acc.reverse]
  | fuel + 1, c :: rest, acc =>
    if c = '\r' ∧ rest.head? = some '\n' then
      acc.reverse :: splitlinesGoAux fuel rest.tail []
    else if isLineBreak c then
      acc.reverse :: splitlinesGoAux fuel rest []
    else splitlinesGoAux fuel rest (c :: acc)

/-- Python `str.splitlines()`. -/
def pySplitlines (s : Word) : List Word := splitlinesGoAux (s.length + 1) s []

/-- The per-line body of `main`: split into items, process each item, and
concatenate the results. -/
def processLine (alts : List (Word × Word)) (known : List Word) (forced : Bool)
    (line : Word) : Except PyErr Word := do
  let processed ← listMapE (processItem alts known forced) (splitWords line)
  Except.ok processed.flatten

/-- Source `specials_to_regex_alts`: lowercase each special letter and compile
its pattern from the casefolded alternative spelling. -/
def mapAlts (sm : List (Word × Word)) : List (Word × Word) :=
  sm.map (fun kv => (pyLowerStr kv.1, casefoldStr kv.2))

/-- The whole restoration (`main` minus I/O): split the text into lines,
process every line, and rejoin with '\n'. -/
def restore (sm : List (Word × Word)) (known : List Word) (forced : Bool)
    (text : Word) : Except PyErr Word := do
  let alts := mapAlts sm
  let processed ← listMapE (processLine alts known forced) (pySplitlines text)
  Except.ok (List.intercalate ['\n'] processed)

/-- Modelled from the spec: the German `SpecialLetterMap` (the repository's
`language_specials.json` is not part of the sources; the spec gives the
letter→alternative pairs "ü"→"ue", "ß"→"ss" and the umlaut scheme
"ä"→"ae", "ö"→"oe"). -/
def germanMap : List (Word × Word) :=
  [(['ä'], ['a','e']), (['ö'], ['o','e']), (['ü'], ['u','e']), (['ß'], ['s','s'])]

/-- The German map after `specials_to_regex_alts` preprocessing. -/
def germanAlts : List (Word × Word) := mapAlts germanMap

/-- The candidate strings generated for a word (pure form; equals the list the
program computes, by `candidates_eq`). -/
def wordCandidates (alts : List (Word × Word)) (item : Word) : List Word :=
  (combinations_any_length (spanMapKeys (buildSpanMap alts item))).map
    (fun spans => substituteTotal item spans (buildSpanMap alts item))

/-- The legal candidates of dictionary mode: candidates that are in the known
words verbatim or in lowercased form. -/
def legalCandidates (alts : List (Word × Word)) (known : List Word)
    (item : Word) : List Word :=
  (wordCandidates alts item).filter
    (fun c => known.contains c || known.contains (pyLowerStr c))


/-- Well-formedness of the (preprocessed) `SpecialLetterMap` assumed by the
spec (§3): every canonical letter is nonempty and every alternative-spelling
pattern consists of lowercase ASCII letters (which casefolding fixes). -/
def wfAlts (alts : List (Word × Word)) : Prop :=
  ∀ lp ∈ alts, (lp : Word × Word).1 ≠ [] ∧ ∀ c ∈ (lp : Word × Word).2, c ∈ asciiLowers

/-- The span assignment of the spec §8 example: `(0,2) -> "ü"` and
`(6,8) -> "ü"` on the word "ueberfuehrt". -/
def umlautExampleMap : List (Span × Word) := [((0, 2), ['ü']), ((6, 8), ['ü'])]

/-! ### Generic helpers: effectful map, fold invariants -/

theorem listMapE_ok_of_forall {α β : Type} {f : α → Except PyErr β} {g : α → β} :
    ∀ {l : List α}, (∀ x ∈ l, f x = Except.ok (g x)) → listMapE f l = Except.ok (l.map g)
  | [], _ => rfl
  | x :: xs, h => by
    have hx := h x (by simp)
    have hxs := listMapE_ok_of_forall (l := xs) (fun y hy => h y (by simp [hy]))
    simp only [listMapE, hx, hxs, List.map_cons]
    rfl

theorem listMapE_id {α : Type} {f : α → Except PyErr α} {l : List α}
    (h : ∀ x ∈ l, f x = Except.ok x) : listMapE f l = Except.ok l := by
  have := listMapE_ok_of_forall (g := id) h
  simpa using this

theorem listMapE_cons_ok {α β : Type} {f : α → Except PyErr β} {x : α} {xs : List α}
    {ys : List β} (h : listMapE f (x :: xs) = Except.ok ys) :
    ∃ y ys', f x = Except.ok y ∧ listMapE f xs = Except.ok ys' ∧ ys = y :: ys' := by
  simp only [listMapE] at h
  cases hx : f x with
  | error e => rw [hx] at h; exact absurd h (by simp [Bind.bind, Except.bind])
  | ok y =>
    rw [hx] at h
    cases hxs : listMapE f xs with
    | error e => rw [hxs] at h; exact absurd h (by simp [Bind.bind, Except.bind])
    | ok ys' =>
      rw [hxs] at h
      refine ⟨y, ys', rfl, rfl, ?_⟩
      have : Except.ok (ε := PyErr) (y :: ys') = Except.ok ys := h
      simpa using this.symm

theorem listMapE_ok_length {α β : Type} {f : α → Except PyErr β} :
    ∀ {l : List α} {ys : List β}, listMapE f l = Except.ok ys → ys.length = l.length
  | [], ys, h => by
    have : Except.ok (ε := PyErr) ([] : List β) = Except.ok ys := h
    simp [← Except.ok.inj this]
  | x :: xs, ys, h => by
    obtain ⟨y, ys', hx, hxs, rfl⟩ := listMapE_cons_ok h
    simp [listMapE_ok_length hxs]

theorem listMapE_ok_get {α β : Type} {f : α → Except PyErr β} :
    ∀ {l : List α} {ys : List β}, listMapE f l = Except.ok ys →
      ∀ i (hi : i < l.length) (hi' : i < ys.length),
        f (l.get ⟨i, hi⟩) = Except.ok (ys.get ⟨i, hi'⟩)
  | [], ys, h => by intro i hi; simp at hi
  | x :: xs, ys, h => by
    obtain ⟨y, ys', hx, hxs, rfl⟩ := listMapE_cons_ok h
    intro i hi hi'
    match i with
    | 0 => simpa using hx
    | i + 1 =>
      simp only [List.get_cons_succ]
      exact listMapE_ok_get hxs i (by simpa using hi) (by simpa using hi')

theorem listMapE_ok_exists {α β : Type} {f : α → Except PyErr β} :
    ∀ {l : List α}, (∀ x ∈ l, ∃ y, f x = Except.ok y) →
      ∃ ys, listMapE f l = Except.ok ys
  | [], _ => ⟨[], rfl⟩
  | x :: xs, h => by
    rcases h x (by simp) with ⟨y, hy⟩
    rcases listMapE_ok_exists (l := xs) (fun z hz => h z (by simp [hz])) with ⟨ys, hys⟩
    refine ⟨y :: ys, ?_⟩
    rw [listMapE, hy]
    show (Except.ok y >>= _) = _
    dsimp only [Bind.bind, Except.bind]
    rw [hys]

theorem foldl_preserve {M X : Type} {P : M → Prop} {step : M → X → M} :
    ∀ {l : List X} {m0 : M}, (∀ m x, x ∈ l → P m → P (step m x)) → P m0 →
      P (l.foldl step m0)
  | [], _, _, h0 => h0
  | x :: xs, m0, h, h0 => by
    rw [List.foldl_cons]
    exact foldl_preserve (fun m y hy => h m y (List.mem_cons_of_mem x hy))
      (h m0 x (List.mem_cons_self x xs) h0)

/-! ### The model of Python `sorted`: permutation and sortedness -/

theorem perm_pyInsert {α : Type} (le : α → α → Bool) (a : α) :
    ∀ l : List α, List.Perm (pyInsert le a l) (a :: l)
  | [] => by simp [pyInsert]
  | b :: l => by
    by_cases hab : le a b
    · simp [pyInsert, hab]
    · simp only [pyInsert, if_neg hab]
      exact List.Perm.trans ((perm_pyInsert le a l).cons b) (List.Perm.swap a b l)

theorem perm_pySorted {α : Type} (le : α → α → Bool) :
    ∀ l : List α, List.Perm (pySorted le l) l
  | [] => by simp [pySorted]
  | x :: xs =>
    List.Perm.trans (perm_pyInsert le x (pySorted le xs)) ((perm_pySorted le xs).cons x)

theorem mem_pySorted {α : Type} (le : α → α → Bool) (l : List α) (x : α) :
    x ∈ pySorted le l ↔ x ∈ l :=
  (perm_pySorted le l).mem_iff

theorem pairwise_pyInsert {α : Type} {le : α → α → Bool}
    (htot : ∀ a b, le a b = true ∨ le b a = true)
    (htrans : ∀ a b c, le a b = true → le b c = true → le a c = true) (a : α) :
    ∀ {l : List α}, l.Pairwise (fun x y => le x y = true) →
      (pyInsert le a l).Pairwise (fun x y => le x y = true)
  | [], _ => by simp [pyInsert]
  | b :: l, h => by
    rcases List.pairwise_cons.mp h with ⟨hb, hl⟩
    by_cases hab : le a b
    · rw [pyInsert, if_pos hab]
      refine List.pairwise_cons.mpr ⟨?_, h⟩
      intro x hx
      rcases List.mem_cons.mp hx with rfl | hx
      · exact hab
      · exact htrans a b x hab (hb x hx)
    · rw [pyInsert, if_neg hab]
      refine List.pairwise_cons.mpr ⟨?_, pairwise_pyInsert htot htrans a hl⟩
      intro x hx
      have hx' := (perm_pyInsert le a l).mem_iff.mp hx
      rcases List.mem_cons.mp hx' with rfl | hx'
      · rcases htot b x with hbx | hxb
        · exact hbx
        · exact False.elim (hab hxb)
      · exact hb x hx'

theorem pairwise_pySorted {α : Type} {le : α → α → Bool}
    (htot : ∀ a b, le a b = true ∨ le b a = true)
    (htrans : ∀ a b c, le a b = true → le b c = true → le a c = true) :
    ∀ l : List α, (pySorted le l).Pairwise (fun x y => le x y = true)
  | [] => by simp [pySorted]
  | x :: xs => pairwise_pyInsert htot htrans x (pairwise_pySorted htot htrans xs)

/-! ### Combinations: cardinality, membership, distinctness, ordering -/

theorem length_combinations {α : Type} : ∀ (l : List α) (r : Nat),
    (combinations l r).length = l.length.choose r
  | _, 0 => by simp [combinations]
  | [], r + 1 => by simp [combinations, Nat.choose]
  | x :: xs, r + 1 => by
    simp [combinations, length_combinations xs r, length_combinations xs (r + 1),
      Nat.choose_succ_succ, Nat.add_comm]

theorem mem_combinations {α : Type} : ∀ {l : List α} {r : Nat} {c : List α},
    c ∈ combinations l r ↔ c.Sublist l ∧ c.length = r
  | l, 0, c => by
    simp only [combinations, List.mem_singleton]
    constructor
    · rintro rfl; exact ⟨List.nil_sublist l, rfl⟩
    · rintro ⟨_, hc⟩; exact List.length_eq_zero.mp hc
  | [], r + 1, c => by
    simp only [combinations, List.not_mem_nil, false_iff, not_and]
    intro hc hlen
    have := hc.length_le
    simp [hlen] at this
  | x :: xs, r + 1, c => by
    simp only [combinations, List.mem_append, List.mem_map]
    constructor
    · rintro (⟨d, hd, rfl⟩ | hc)
      · rcases mem_combinations.mp hd with ⟨hs, hl⟩
        exact ⟨hs.cons₂ x, by simp [hl]⟩
      · rcases mem_combinations.mp hc with ⟨hs, hl⟩
        exact ⟨hs.cons x, hl⟩
    · rintro ⟨hs, hl⟩
      cases hs with
      | cons _ hs' =>
        exact Or.inr (mem_combinations.mpr ⟨hs', hl⟩)
      | cons₂ _ hs' =>
        rename_i d
        exact Or.inl ⟨d, mem_combinations.mpr ⟨hs', by simpa using hl⟩, rfl⟩

theorem nodup_combinations {α : Type} : ∀ {l : List α}, l.Nodup → ∀ r, (combinations l r).Nodup
  | l, _, 0 => by simp [combinations]
  | [], _, r + 1 => by simp [combinations]
  | x :: xs, h, r + 1 => by
    rcases List.nodup_cons.mp h with ⟨hx, hxs⟩
    simp only [combinations]
    rw [List.nodup_append]
    refine ⟨(nodup_combinations hxs r).map ?_, nodup_combinations hxs (r + 1), ?_⟩
    · intro a b hab
      simpa using hab
    · intro c hc1 hc2
      rcases List.mem_map.mp hc1 with ⟨d, _, rfl⟩
      rcases mem_combinations.mp hc2 with ⟨hs, _⟩
      exact hx (hs.subset (by simp))

theorem combinations_eq_nil_of_lt {α : Type} : ∀ {l : List α} {r : Nat}, l.length < r →
    combinations l r = []
  | _, 0, h => by simp at h
  | [], r + 1, _ => rfl
  | x :: xs, r + 1, h => by
    simp only [combinations]
    rw [combinations_eq_nil_of_lt (by simpa using h),
      combinations_eq_nil_of_lt (Nat.lt_succ_of_lt (by simpa using h))]
    rfl

theorem combinations_length_self {α : Type} : ∀ l : List α, combinations l l.length = [l]
  | [] => rfl
  | x :: xs => by
    simp only [List.length_cons, combinations, combinations_length_self xs,
      combinations_eq_nil_of_lt (Nat.lt_succ_self xs.length)]
    rfl

theorem mem_combinations_any_length {α : Type} {l : List α} {c : List α} :
    c ∈ combinations_any_length l ↔ c.Sublist l ∧ c ≠ [] := by
  simp only [combinations_any_length, List.mem_flatMap, List.mem_range]
  constructor
  · rintro ⟨i, hi, hc⟩
    rcases mem_combinations.mp hc with ⟨hs, hl⟩
    exact ⟨hs, by intro h; subst h; simp at hl⟩
  · rintro ⟨hs, hne⟩
    have hpos : 0 < c.length := List.length_pos.mpr hne
    refine ⟨c.length - 1, ?_, mem_combinations.mpr ⟨hs, by omega⟩⟩
    have := hs.length_le
    omega

theorem self_mem_combinations_any_length {α : Type} {l : List α} (h : l ≠ []) :
    l ∈ combinations_any_length l :=
  mem_combinations_any_length.mpr ⟨List.Sublist.refl l, h⟩

theorem sum_map_range {M : Type} [AddCommMonoid M] (f : Nat → M) :
    ∀ n : Nat, ((List.range n).map f).sum = ∑ i ∈ Finset.range n, f i
  | 0 => by simp
  | n + 1 => by
    rw [List.range_succ, Finset.sum_range_succ, List.map_append, List.sum_append,
      sum_map_range f n]
    simp

theorem length_combinations_any_length {α : Type} (l : List α) :
    (combinations_any_length l).length = 2 ^ l.length - 1 := by
  rw [combinations_any_length, List.length_flatMap]
  have h1 : (List.map (List.length ∘ fun i => combinations l (i + 1)) (List.range l.length)).sum
      = ((List.range l.length).map fun i => l.length.choose (i + 1)).sum := by
    congr 1
    exact List.map_congr_left (fun i _ => by
      simp only [Function.comp_apply]
      exact length_combinations l (i + 1))
  rw [h1, sum_map_range]
  have h2 : ∑ i ∈ Finset.range (l.length + 1), l.length.choose i = 2 ^ l.length :=
    Nat.sum_range_choose l.length
  rw [Finset.sum_range_succ'] at h2
  simp only [Nat.choose_zero_right] at h2
  omega

theorem nodup_combinations_any_length {α : Type} {l : List α} (h : l.Nodup) :
    (combinations_any_length l).Nodup := by
  rw [combinations_any_length, List.nodup_flatMap]
  refine ⟨fun i _ => nodup_combinations h (i + 1), ?_⟩
  refine List.Pairwise.imp_of_mem ?_ (List.pairwise_lt_range l.length)
  intro i j _ _ hij c hc1 hc2
  rcases mem_combinations.mp hc1 with ⟨_, h1⟩
  rcases mem_combinations.mp hc2 with ⟨_, h2⟩
  omega

theorem sizes_sorted_flatMap {α : Type} (l : List α) :
    ∀ n : Nat, List.Sorted (fun a b => a ≤ b)
      (((List.range n).flatMap (fun i => combinations l (i + 1))).map List.length)
  | 0 => by simp
  | n + 1 => by
    rw [List.range_succ, List.flatMap_append, List.map_append]
    rw [List.Sorted, List.pairwise_append]
    refine ⟨sizes_sorted_flatMap l n, ?_, ?_⟩
    · simp only [List.flatMap_cons, List.flatMap_nil, List.append_nil, List.Sorted]
      rw [List.pairwise_map]
      apply List.pairwise_of_forall_mem_list
      intro a ha b hb
      rcases mem_combinations.mp ha with ⟨_, h1⟩
      rcases mem_combinations.mp hb with ⟨_, h2⟩
      omega
    · intro x hx y hy
      rcases List.mem_map.mp hx with ⟨c, hc, rfl⟩
      rcases List.mem_flatMap.mp hc with ⟨i, hi, hci⟩
      rcases mem_combinations.mp hci with ⟨_, hlen⟩
      rcases List.mem_map.mp hy with ⟨d, hd, rfl⟩
      simp only [List.flatMap_cons, List.flatMap_nil, List.append_nil] at hd
      rcases mem_combinations.mp hd with ⟨_, hlen'⟩
      simp at hi
      omega

theorem sizes_sorted_combinations_any_length {α : Type} (l : List α) :
    List.Sorted (fun a b => a ≤ b) ((combinations_any_length l).map List.length) :=
  sizes_sorted_flatMap l l.length

/-! ### The selector `distinct_highest_element` -/

theorem dhe_spec {α : Type} (key : α → Nat) {l : List α} {m : α}
    (hm : m ∈ l) (hnd : l.Nodup)
    (hmax : ∀ x ∈ l, x ≠ m → key x < key m) :
    distinct_highest_element key l = Except.ok (some m) := by
  unfold distinct_highest_element
  have htot : ∀ a b : α, (decide (key a ≤ key b)) = true ∨ (decide (key b ≤ key a)) = true := by
    intro a b
    rcases Nat.le_total (key a) (key b) with h | h
    · exact Or.inl (by simpa using h)
    · exact Or.inr (by simpa using h)
  have htrans : ∀ a b c : α, (decide (key a ≤ key b)) = true →
      (decide (key b ≤ key c)) = true → (decide (key a ≤ key c)) = true := by
    intro a b c hab hbc
    simp only [decide_eq_true_eq] at *
    omega
  have hP := perm_pySorted (fun a b => decide (key a ≤ key b)) l
  have hS := pairwise_pySorted htot htrans l
  set S := pySorted (fun a b => decide (key a ≤ key b)) l with hSdef
  match hrev : S.reverse with
  | [] =>
    exfalso
    have hnil : S = [] := by
      have := congrArg List.reverse hrev
      simpa using this
    rw [hnil] at hP
    exact absurd (hP.symm.mem_iff.mp hm) (by simp)
  | [h] =>
    have hS1 : S = [h] := by
      have := congrArg List.reverse hrev
      simpa using this
    rw [hS1] at hP
    have hmh : m = h := by
      have := hP.symm.mem_iff.mp hm
      simpa using this
    simp only [hrev, hmh]
  | h :: s :: t =>
    have hSeq : S = (t.reverse ++ [s]) ++ [h] := by
      have := congrArg List.reverse hrev
      simpa using this
    have hmemS : ∀ x, x ∈ S ↔ x ∈ l := fun x => hP.mem_iff
    have hup : ∀ x ∈ t.reverse ++ [s], key x ≤ key h := by
      intro x hx
      rw [hSeq] at hS
      rcases (List.pairwise_append.mp hS) with ⟨_, _, hcross⟩
      have := hcross x hx h (by simp)
      simpa using this
    have hhm : h = m := by
      by_contra hne
      have hhl : h ∈ l := (hmemS h).mp (by rw [hSeq]; simp)
      have hlt : key h < key m := hmax h hhl hne
      have hmS : m ∈ S := (hmemS m).mpr hm
      rw [hSeq] at hmS
      rcases List.mem_append.mp hmS with hmX | hmH
      · have := hup m hmX
        omega
      · simp at hmH
        exact hne hmH.symm
    have hSnd : S.Nodup := (hP.nodup_iff).mpr hnd
    have hsm : s ≠ m := by
      intro hsm
      rw [hSeq] at hSnd
      rcases List.nodup_append.mp hSnd with ⟨hnd1, _, hdisj⟩
      exact hdisj (a := s) (by simp) (by simp [hsm, ← hhm])
    have hsl : s ∈ l := (hmemS s).mp (by rw [hSeq]; simp)
    have hslt : key s < key m := hmax s hsl hsm
    simp only [hrev]
    rw [if_pos (by rw [hhm]; exact hslt)]
    rw [hhm]

/-- In forced mode the selector, applied to all combinations of a nonempty
duplicate-free span list with `key=len`, returns the full span list. -/
theorem dhe_combinations {l : List Span} (hne : l ≠ []) (hnd : l.Nodup) :
    distinct_highest_element List.length (combinations_any_length l)
      = Except.ok (some l) := by
  apply dhe_spec
  · exact self_mem_combinations_any_length hne
  · exact nodup_combinations_any_length hnd
  · intro c hc hcne
    rcases mem_combinations_any_length.mp hc with ⟨hs, _⟩
    have hle := hs.length_le
    have : c.length ≠ l.length := by
      intro heq
      exact hcne (hs.eq_of_length heq)
    omega

/-! ### The span dictionary -/

theorem lookupSpan_isSome_iff : ∀ {m : List (Span × Word)} {k : Span},
    (lookupSpan m k).isSome = true ↔ k ∈ spanMapKeys m
  | [], k => by simp [lookupSpan, spanMapKeys]
  | p :: rest, k => by
    simp only [lookupSpan, spanMapKeys, List.map_cons, List.mem_cons]
    by_cases hpk : p.1 = k
    · simp [hpk]
    · rw [if_neg hpk]
      rw [lookupSpan_isSome_iff]
      simp [spanMapKeys, Ne.symm hpk]

theorem lookupSpan_mem : ∀ {m : List (Span × Word)} {k : Span} {v : Word},
    lookupSpan m k = some v → (k, v) ∈ m
  | [], k, v, h => by simp [lookupSpan] at h
  | p :: rest, k, v, h => by
    rw [lookupSpan] at h
    by_cases hpk : p.1 = k
    · rw [if_pos hpk] at h
      have : p = (k, v) := by
        rcases p with ⟨pk, pv⟩
        simp at hpk h
        simp [hpk, h]
      simp [← this]
    · rw [if_neg hpk] at h
      exact List.mem_cons_of_mem p (lookupSpan_mem h)

theorem any_key_iff_mem (m : List (Span × Word)) (k : Span) :
    (m.any fun p => decide (p.1 = k)) = true ↔ k ∈ spanMapKeys m := by
  rw [List.any_eq_true]
  constructor
  · rintro ⟨p, hp, hpk⟩
    exact List.mem_map.mpr ⟨p, hp, by simpa using hpk⟩
  · intro hk
    rcases List.mem_map.mp hk with ⟨p, hp, hpk⟩
    exact ⟨p, hp, by simpa using hpk⟩

theorem spanMapKeys_dictInsert (m : List (Span × Word)) (k : Span) (v : Word) :
    spanMapKeys (dictInsert m k v) =
      if k ∈ spanMapKeys m then spanMapKeys m else spanMapKeys m ++ [k] := by
  unfold dictInsert
  by_cases hk : k ∈ spanMapKeys m
  · rw [if_pos ((any_key_iff_mem m k).mpr hk), if_pos hk]
    unfold spanMapKeys
    rw [List.map_map]
    apply List.map_congr_left
    intro q _
    by_cases hqk : q.1 = k
    · simp [hqk]
    · simp [hqk]
  · have hany : ¬ (m.any fun p => decide (p.1 = k)) = true := by
      rw [any_key_iff_mem]; exact hk
    rw [if_neg hany, if_neg hk]
    simp [spanMapKeys]

theorem nodup_keys_dictInsert {m : List (Span × Word)} {k : Span} {v : Word}
    (h : (spanMapKeys m).Nodup) : (spanMapKeys (dictInsert m k v)).Nodup := by
  rw [spanMapKeys_dictInsert]
  by_cases hk : k ∈ spanMapKeys m
  · rwa [if_pos hk]
  · rw [if_neg hk]
    simp [List.nodup_append, h, hk]

theorem mem_dictInsert {m : List (Span × Word)} {k : Span} {v : Word} {q : Span × Word}
    (h : q ∈ dictInsert m k v) : q ∈ m ∨ q = (k, v) := by
  unfold dictInsert at h
  by_cases hany : (m.any fun p => decide (p.1 = k)) = true
  · rw [if_pos hany] at h
    rcases List.mem_map.mp h with ⟨p, hp, hpq⟩
    by_cases hpk : p.1 = k
    · rw [if_pos hpk] at hpq
      exact Or.inr hpq.symm
    · rw [if_neg hpk] at hpq
      exact Or.inl (hpq ▸ hp)
  · rw [if_neg hany] at h
    rcases List.mem_append.mp h with h | h
    · exact Or.inl h
    · simp at h
      exact Or.inr h

theorem bsm_inner_keys_nodup (item : Word) :
    ∀ (ms : List Span) (acc : List (Span × Word) × Word),
      (spanMapKeys acc.1).Nodup →
      (spanMapKeys ((ms.foldl
        (fun (acc : List (Span × Word) × Word) sp =>
          let matched := (item.drop sp.1).take (sp.2 - sp.1)
          let letter := if matched.any pyIsUpper then pyUpperStr acc.2 else pyLowerStr acc.2
          (dictInsert acc.1 sp letter, letter))
        acc).1)).Nodup
  | [], _, h => h
  | sp :: rest, acc, h => by
    rw [List.foldl_cons]
    exact bsm_inner_keys_nodup item rest _ (nodup_keys_dictInsert h)

theorem nodup_keys_buildSpanMap (alts : List (Word × Word)) (item : Word) :
    (spanMapKeys (buildSpanMap alts item)).Nodup := by
  unfold buildSpanMap
  apply foldl_preserve (P := fun m => (spanMapKeys m).Nodup)
  · intro m lp _ hm
    exact bsm_inner_keys_nodup item (finditer lp.2 item) (m, lp.1) hm
  · simp [spanMapKeys]

/-! ### The substitutor -/

theorem subst_foldlM_ok {m : List (Span × Word)} :
    ∀ (spans : List Span) (s : Word), (∀ sp ∈ spans, sp ∈ spanMapKeys m) →
      spans.foldlM
        (fun s sp =>
          match lookupSpan m sp with
          | none => Except.error PyErr.keyError
          | some sub => Except.ok (s.take sp.1 ++ sub ++ s.drop sp.2))
        s
      = Except.ok (spans.foldl
          (fun s sp => s.take sp.1 ++ (lookupSpan m sp).getD [] ++ s.drop sp.2) s)
  | [], s, _ => rfl
  | sp :: rest, s, h => by
    have hsome : (lookupSpan m sp).isSome = true :=
      lookupSpan_isSome_iff.mpr (h sp (by simp))
    rcases Option.isSome_iff_exists.mp hsome with ⟨sub, hsub⟩
    rw [List.foldlM_cons, hsub]
    show (Except.ok (s.take sp.1 ++ sub ++ s.drop sp.2) >>= _) = _
    rw [List.foldl_cons, hsub]
    have := subst_foldlM_ok rest (s.take sp.1 ++ sub ++ s.drop sp.2)
      (fun x hx => h x (by simp [hx]))
    simpa using this

theorem substitute_spans_eq_total {string : Word} {spans : List Span}
    {m : List (Span × Word)} (h : ∀ sp ∈ spans, sp ∈ spanMapKeys m) :
    substitute_spans string spans m = Except.ok (substituteTotal string spans m) := by
  unfold substitute_spans substituteTotal
  exact subst_foldlM_ok _ _ (fun sp hsp => h sp ((mem_pySorted spanDescB spans sp).mp hsp))

theorem subst_foldl_ne_nil {m : List (Span × Word)} :
    ∀ {spans : List Span} {s : Word}, spans ≠ [] →
      (∀ sp ∈ spans, (lookupSpan m sp).getD [] ≠ []) →
      spans.foldl (fun s sp => s.take sp.1 ++ (lookupSpan m sp).getD [] ++ s.drop sp.2) s ≠ []
  | [], _, h, _ => absurd rfl h
  | sp :: rest, s, _, hv => by
    rw [List.foldl_cons]
    match hr : rest with
    | [] =>
      simp only [List.foldl_nil]
      have := hv sp (by simp)
      intro hcon
      rcases List.append_eq_nil.mp hcon with ⟨h1, h2⟩
      rcases List.append_eq_nil.mp h1 with ⟨_, h3⟩
      exact this h3
    | sp2 :: rest2 =>
      exact subst_foldl_ne_nil (by simp) (fun x hx => hv x (by simp [hx]))

theorem substituteTotal_ne_nil {string : Word} {spans : List Span}
    {m : List (Span × Word)} (hne : spans ≠ [])
    (hv : ∀ sp ∈ spans, (lookupSpan m sp).getD [] ≠ []) :
    substituteTotal string spans m ≠ [] := by
  unfold substituteTotal
  have hperm := perm_pySorted spanDescB spans
  apply subst_foldl_ne_nil
  · intro hcon
    rw [hcon] at hperm
    exact hne (hperm.symm.eq_nil)
  · intro sp hsp
    exact hv sp ((mem_pySorted spanDescB spans sp).mp hsp)

/-! ### The string representation -/

theorem intercalate_singleton (sep : Word) (s : Word) :
    List.intercalate sep [s] = s := by
  simp [List.intercalate]

theorem represent_one (s : Word) :
    represent_strings [s] defaultSep defaultDelims = Except.ok s := by
  unfold represent_strings
  rw [if_neg (by simp [defaultDelims])]
  simp only [defaultDelims, List.length_singleton]
  norm_num
  simp [intercalate_singleton]

theorem represent_many (a b : Word) (rest : List Word) :
    represent_strings (a :: b :: rest) defaultSep defaultDelims =
      Except.ok (['['] ++ List.intercalate defaultSep (a :: b :: rest) ++ [']']) := by
  unfold represent_strings
  rw [if_neg (by simp [defaultDelims])]
  simp [defaultDelims]

theorem represent_ok_of_ne_nil {strings : List Word} (h : strings ≠ []) :
    ∃ w, represent_strings strings defaultSep defaultDelims = Except.ok w := by
  match strings with
  | [] => exact absurd rfl h
  | [s] => exact ⟨s, represent_one s⟩
  | a :: b :: rest => exact ⟨_, represent_many a b rest⟩

/-! ### Casefold containment follows from a case-insensitive match -/

theorem pyLower_fixed_of_lower {p : Char} (hp : p ∈ asciiLowers) : pyLower p = p := by
  fin_cases hp <;> rfl

theorem cfChar_of_lower {p : Char} (hp : p ∈ asciiLowers) : cfChar p = [p] := by
  fin_cases hp <;> rfl

theorem eszett_pyLower_not_lower {p : Char} (hp : p ∈ asciiLowers) :
    pyLower 'ß' ≠ p ∧ pyLower 'ẞ' ≠ p := by
  fin_cases hp <;> exact ⟨by decide, by decide⟩

theorem casefold_fixed_of_lower : ∀ (pat : Word), (∀ c ∈ pat, c ∈ asciiLowers) →
    casefoldStr pat = pat
  | [], _ => rfl
  | p :: ps, h => by
    have h1 := cfChar_of_lower (h p (by simp))
    have h2 := casefold_fixed_of_lower ps (fun c hc => h c (by simp [hc]))
    simp only [casefoldStr, List.flatMap_cons] at *
    rw [h1, h2]
    rfl

theorem cfChar_of_imatch {p c : Char} (hp : p ∈ asciiLowers)
    (h : charIMatch p c = true) : cfChar c = [p] := by
  unfold charIMatch at h
  rw [pyLower_fixed_of_lower hp] at h
  have hlc : pyLower c = p := (eq_of_beq h).symm
  unfold cfChar
  rcases eszett_pyLower_not_lower hp with ⟨h1, h2⟩
  rw [if_neg ?_]
  · rw [hlc]
  · rintro (rfl | rfl)
    · exact h1 hlc
    · exact h2 hlc

theorem casefold_of_prefixIMatch : ∀ {pat t : Word}, (∀ c ∈ pat, c ∈ asciiLowers) →
    prefixIMatch pat t = true → ∃ u, casefoldStr t = pat ++ u
  | [], t, _, _ => ⟨casefoldStr t, rfl⟩
  | p :: ps, [], _, h => by simp [prefixIMatch] at h
  | p :: ps, c :: cs, hwf, h => by
    rw [prefixIMatch, Bool.and_eq_true] at h
    rcases casefold_of_prefixIMatch (fun x hx => hwf x (by simp [hx])) h.2 with ⟨u, hu⟩
    refine ⟨u, ?_⟩
    show cfChar c ++ casefoldStr cs = (p :: ps) ++ u
    rw [cfChar_of_imatch (hwf p (by simp)) h.1, hu]
    rfl

theorem prefixEqB_append (pat x : Word) : prefixEqB pat (pat ++ x) = true := by
  induction pat with
  | nil => rfl
  | cons p ps ih => simp [prefixEqB, ih]

theorem seqContains_nil_needle : ∀ l : Word, seqContains [] l = true
  | [] => rfl
  | c :: rest => by rw [seqContains]; simp [prefixEqB]

theorem seqContains_of_append : ∀ (pre pat post : Word),
    seqContains pat (pre ++ pat ++ post) = true
  | [], pat, post => by
    match pat with
    | [] => simpa using seqContains_nil_needle post
    | p :: ps =>
      have h1 : (([] : Word) ++ (p :: ps) ++ post) = p :: (ps ++ post) := by simp
      rw [h1, seqContains]
      have h2 : (p :: (ps ++ post)) = ((p :: ps) ++ post) := rfl
      rw [h2, prefixEqB_append]
      rfl
  | c :: pre, pat, post => by
    have h1 : ((c :: pre) ++ pat ++ post) = c :: (pre ++ pat ++ post) := by simp
    rw [h1, seqContains, Bool.or_eq_true]
    exact Or.inr (seqContains_of_append pre pat post)

theorem finditerAux_match : ∀ {pat s : Word} {i fuel : Nat},
    finditerAux pat s i fuel ≠ [] → ∃ j, prefixIMatch pat (s.drop j) = true := by
  intro pat s
  intro i fuel
  induction fuel generalizing i with
  | zero => intro h; exact absurd rfl h
  | succ fuel ih =>
    intro h
    rw [finditerAux] at h
    by_cases h1 : i ≥ s.length
    · rw [if_pos h1] at h; exact absurd rfl h
    · rw [if_neg h1] at h
      by_cases h2 : prefixIMatch pat (s.drop i) = true
      · exact ⟨i, h2⟩
      · rw [if_neg h2] at h
        exact ih h

theorem cf_contains_of_finditer {pat item : Word}
    (hwf : ∀ c ∈ pat, c ∈ asciiLowers) (h : finditer pat item ≠ []) :
    cf_contains pat item = true := by
  rcases finditerAux_match h with ⟨j, hj⟩
  rcases casefold_of_prefixIMatch hwf hj with ⟨u, hu⟩
  unfold cf_contains
  rw [casefold_fixed_of_lower pat hwf]
  have hsplit : casefoldStr item = casefoldStr (item.take j) ++ pat ++ u := by
    conv_lhs => rw [← List.take_append_drop j item]
    rw [casefoldStr, List.flatMap_append, ← casefoldStr, ← casefoldStr, hu]
    rw [← List.append_assoc]
  rw [hsplit]
  exact seqContains_of_append _ pat u

/-! ### The pre-check fires whenever the Span Finder finds a span -/

theorem bsm_aux (item : Word) : ∀ (al : List (Word × Word)) (m : List (Span × Word)),
    (al.foldl (fun m lp =>
      ((finditer lp.2 item).foldl
        (fun (acc : List (Span × Word) × Word) sp =>
          let matched := (item.drop sp.1).take (sp.2 - sp.1)
          let letter := if matched.any pyIsUpper then pyUpperStr acc.2 else pyLowerStr acc.2
          (dictInsert acc.1 sp letter, letter))
        (m, lp.1)).1) m) ≠ [] →
    m ≠ [] ∨ ∃ lp ∈ al, finditer lp.2 item ≠ []
  | [], m, h => Or.inl h
  | lp :: rest, m, h => by
    rw [List.foldl_cons] at h
    rcases bsm_aux item rest _ h with hm | hex
    · cases hfi : finditer lp.2 item with
      | nil => rw [hfi] at hm; exact Or.inl (by simpa using hm)
      | cons a b => exact Or.inr ⟨lp, by simp, by rw [hfi]; simp⟩
    · rcases hex with ⟨q, hq, hfi⟩
      exact Or.inr ⟨q, by simp [hq], hfi⟩

theorem buildSpanMap_ne_nil_finditer {alts : List (Word × Word)} {item : Word}
    (h : buildSpanMap alts item ≠ []) :
    ∃ lp ∈ alts, finditer lp.2 item ≠ [] := by
  unfold buildSpanMap at h
  rcases bsm_aux item alts [] h with hm | hex
  · exact absurd rfl hm
  · exact hex

theorem isSpecialWord_of_map_ne_nil {alts : List (Word × Word)} {item : Word}
    (hwf : ∀ lp ∈ alts, ∀ c ∈ (lp : Word × Word).2, c ∈ asciiLowers)
    (hword : isWordTok item = true)
    (h : buildSpanMap alts item ≠ []) : isSpecialWord alts item = true := by
  unfold isSpecialWord
  rw [hword, Bool.true_and]
  rcases buildSpanMap_ne_nil_finditer h with ⟨lp, hlp, hfi⟩
  rw [List.any_eq_true]
  exact ⟨lp, hlp, cf_contains_of_finditer (hwf lp hlp) hfi⟩

/-! ### The per-token pipeline -/

theorem pyUpperChar_ne_nil (c : Char) : pyUpperChar c ≠ [] := by
  unfold pyUpperChar
  repeat' split
  all_goals simp

theorem pyUpperStr_ne_nil {l : Word} (h : l ≠ []) : pyUpperStr l ≠ [] := by
  match l with
  | [] => exact absurd rfl h
  | c :: rest =>
    unfold pyUpperStr
    rw [List.flatMap_cons]
    intro hcon
    exact pyUpperChar_ne_nil c (List.append_eq_nil.mp hcon).1

theorem pyLowerStr_ne_nil {l : Word} (h : l ≠ []) : pyLowerStr l ≠ [] := by
  match l with
  | [] => exact absurd rfl h
  | c :: rest => simp [pyLowerStr]

/-- Invariant of the inner span-finding fold: if all stored substitution
values and the carried `special_letter` are nonempty, this stays true (the
upper/lower adjustments preserve nonemptiness). -/
theorem bsm_inner_values_ne_nil (item : Word) :
    ∀ (ms : List Span) (acc : List (Span × Word) × Word),
      (∀ q : Span × Word, q ∈ acc.1 → q.2 ≠ []) → acc.2 ≠ [] →
      ∀ q : Span × Word, q ∈ ((ms.foldl
        (fun (acc : List (Span × Word) × Word) sp =>
          let matched := (item.drop sp.1).take (sp.2 - sp.1)
          let letter := if matched.any pyIsUpper then pyUpperStr acc.2 else pyLowerStr acc.2
          (dictInsert acc.1 sp letter, letter))
        acc).1) → q.2 ≠ []
  | [], _, h1, _ => h1
  | sp :: rest, acc, h1, h2 => by
    rw [List.foldl_cons]
    have hletter : (if ((item.drop sp.1).take (sp.2 - sp.1)).any pyIsUpper
        then pyUpperStr acc.2 else pyLowerStr acc.2) ≠ [] := by
      split
      · exact pyUpperStr_ne_nil h2
      · exact pyLowerStr_ne_nil h2
    apply bsm_inner_values_ne_nil item rest
    · intro q hq
      rcases mem_dictInsert hq with hq2 | hq2
      · exact h1 q hq2
      · rw [hq2]
        exact hletter
    · exact hletter

theorem buildSpanMap_values_ne_nil {alts : List (Word × Word)} {item : Word}
    (hletters : ∀ lp ∈ alts, (lp : Word × Word).1 ≠ []) :
    ∀ q ∈ buildSpanMap alts item, (q : Span × Word).2 ≠ [] := by
  unfold buildSpanMap
  apply foldl_preserve (P := fun (m : List (Span × Word)) =>
    ∀ q : Span × Word, q ∈ m → q.2 ≠ [])
  · intro m lp hlp hm
    exact bsm_inner_values_ne_nil item (finditer lp.2 item) (m, lp.1) hm
      (hletters lp hlp)
  · simp

/-- The loop-variable carry-over of the span-finding loop, pinned on "Ssass":
the uppercase match "Ss" stores 'ß'.upper() = "SS" and reassigns
`special_letter`, so the following lowercase match "ss" stores
"SS".lower() = "ss" — not 'ß'. -/
theorem buildSpanMap_carryover_eval :
    buildSpanMap germanAlts (String.toList "Ssass")
      = [((0, 2), ['S', 'S']), ((3, 5), ['s', 's'])] := rfl

/-- Forced mode on "Ssass" therefore outputs "SSass" (the "ss" substitution is
the identity), not "SSaß". -/
theorem forced_carryover_eval :
    processItem germanAlts [] true (String.toList "Ssass")
      = Except.ok (String.toList "SSass") := rfl

/-- Dictionary mode on "Ssass" with known word "SSass": two combinations
produce the same legal candidate string, so the output shows the duplicate
ambiguity "[SSass|SSass]". -/
theorem dict_carryover_eval :
    processItem germanAlts [String.toList "SSass"] false (String.toList "Ssass")
      = Except.ok (String.toList "[SSass|SSass]") := rfl

theorem candidates_ok (alts : List (Word × Word)) (item : Word) :
    listMapE (fun spans => substitute_spans item spans (buildSpanMap alts item))
      (combinations_any_length (spanMapKeys (buildSpanMap alts item)))
    = Except.ok (wordCandidates alts item) := by
  unfold wordCandidates
  apply listMapE_ok_of_forall
  intro spans hspans
  apply substitute_spans_eq_total
  intro sp hsp
  exact (mem_combinations_any_length.mp hspans).1.subset hsp

theorem processItem_not_special {alts : List (Word × Word)} {known : List Word}
    {forced : Bool} {item : Word} (h : isSpecialWord alts item = false) :
    processItem alts known forced item = Except.ok item := by
  unfold processItem
  rw [if_neg (by simp [h])]

theorem processItem_dict {alts : List (Word × Word)} {known : List Word}
    {item : Word} (h : isSpecialWord alts item = true) :
    processItem alts known false item =
      if (legalCandidates alts known item).isEmpty then Except.ok item
      else represent_strings (legalCandidates alts known item) defaultSep defaultDelims := by
  unfold processItem
  rw [if_pos h]
  dsimp only
  rw [candidates_ok]
  dsimp only [Bind.bind, Except.bind]
  rw [if_neg (by simp)]
  rfl

theorem processItem_forced {alts : List (Word × Word)} {known : List Word}
    {item : Word} (h : isSpecialWord alts item = true)
    (hkeys : spanMapKeys (buildSpanMap alts item) ≠ [])
    (hletters : ∀ lp ∈ alts, (lp : Word × Word).1 ≠ []) :
    processItem alts known true item =
      Except.ok (substituteTotal item (spanMapKeys (buildSpanMap alts item))
        (buildSpanMap alts item)) := by
  unfold processItem
  rw [if_pos h]
  dsimp only
  rw [candidates_ok]
  dsimp only [Bind.bind, Except.bind]
  rw [if_pos rfl]
  rw [dhe_combinations hkeys (nodup_keys_buildSpanMap alts item)]
  dsimp only [Bind.bind, Except.bind]
  rw [if_neg hkeys]
  rw [substitute_spans_eq_total (fun sp hsp => hsp)]
  dsimp only [Bind.bind, Except.bind]
  have hword : substituteTotal item (spanMapKeys (buildSpanMap alts item))
      (buildSpanMap alts item) ≠ [] := by
    apply substituteTotal_ne_nil hkeys
    intro sp hsp
    rcases Option.isSome_iff_exists.mp (lookupSpan_isSome_iff.mpr hsp) with ⟨v, hv⟩
    rw [hv]
    have := buildSpanMap_values_ne_nil hletters (sp, v) (lookupSpan_mem hv)
    simpa using this
  rw [if_neg hword]
  exact represent_one _

/-! ### Tokenisation and line splitting -/

theorem splitWordsAux_flatten : ∀ (fuel : Nat) (l : Word), l.length < fuel →
    (splitWordsAux fuel l).flatten = l
  | 0, l, h => absurd h (by omega)
  | fuel + 1, l, h => by
    rw [splitWordsAux]
    split
    · rename_i hd
      simp only [List.flatten, List.append_nil]
      conv_rhs => rw [← List.takeWhile_append_dropWhile (fun c => !isWordChar c) l]
      rw [hd]
      simp
    · rename_i c cs hd
      have h1 : (c :: cs).length ≤ l.length := by
        have hs := (List.dropWhile_sublist (l := l) (fun c => !isWordChar c)).length_le
        rw [hd] at hs; exact hs
      have hc : isWordChar c = true := by
        have hh := List.head?_dropWhile_not (fun c => !isWordChar c) l
        rw [hd] at hh
        simpa using hh
      have h2 : ((c :: cs).dropWhile isWordChar).length < (c :: cs).length := by
        rw [List.dropWhile_cons, if_pos hc]
        exact Nat.lt_succ_of_le (List.dropWhile_sublist isWordChar).length_le
      have ih := splitWordsAux_flatten fuel ((c :: cs).dropWhile isWordChar) (by omega)
      simp only [List.flatten_cons, ih]
      rw [List.takeWhile_append_dropWhile]
      conv_rhs => rw [← List.takeWhile_append_dropWhile (fun c => !isWordChar c) l]
      rw [hd]

theorem splitWords_flatten (l : Word) : (splitWords l).flatten = l :=
  splitWordsAux_flatten (l.length + 1) l (Nat.lt_succ_self _)

theorem splitlinesGoAux_append {l : Word} (hbf : ∀ c ∈ l, isLineBreak c = false) :
    ∀ (rest acc : Word) (fuel : Nat),
      splitlinesGoAux (l.length + fuel) (l ++ rest) acc
        = splitlinesGoAux fuel rest (l.reverse ++ acc) := by
  induction l with
  | nil => intro rest acc fuel; simp
  | cons c l' ih =>
    intro rest acc fuel
    have hc : isLineBreak c = false := hbf c (by simp)
    have hcr : ¬ (c = '\r' ∧ (l' ++ rest).head? = some '\n') := by
      rintro ⟨rfl, _⟩
      simp [isLineBreak] at hc
    have harith : (c :: l').length + fuel = (l'.length + fuel) + 1 := by
      simp only [List.length_cons]
      omega
    rw [harith, List.cons_append, splitlinesGoAux]
    rw [if_neg hcr, if_neg (by simp [hc])]
    rw [ih (fun x hx => hbf x (by simp [hx])) rest (c :: acc) fuel]
    congr 1
    simp

theorem pySplitlines_intercalate : ∀ (ls : List Word),
    (∀ l ∈ ls, ∀ c ∈ l, isLineBreak c = false) → ls.getLast? ≠ some [] →
    pySplitlines (List.intercalate ['\n'] ls) = ls
  | [], _, _ => rfl
  | [l], hbf, hlast => by
    rw [intercalate_singleton]
    unfold pySplitlines
    have happ := splitlinesGoAux_append (hbf l (by simp)) [] [] 1
    rw [show l ++ ([] : Word) = l by simp] at happ
    rw [happ]
    rw [splitlinesGoAux]
    have hl : l ≠ [] := by
      intro hcon
      exact hlast (by simp [hcon])
    rw [if_neg (by simpa using hl)]
    simp
  | l :: l2 :: rest, hbf, hlast => by
    have hstep : List.intercalate ['\n'] (l :: l2 :: rest)
        = l ++ '\n' :: List.intercalate ['\n'] (l2 :: rest) := by
      simp [List.intercalate, List.intersperse]
    rw [hstep]
    unfold pySplitlines
    have harith : (l ++ '\n' :: List.intercalate ['\n'] (l2 :: rest)).length + 1
        = l.length + ((List.intercalate ['\n'] (l2 :: rest)).length + 2) := by
      simp only [List.length_append, List.length_cons]
      omega
    rw [harith]
    rw [splitlinesGoAux_append (hbf l (by simp))]
    rw [splitlinesGoAux]
    rw [if_neg (by rintro ⟨hh, _⟩; exact absurd hh (by decide))]
    rw [if_pos (by decide)]
    have hrec := pySplitlines_intercalate (l2 :: rest)
      (fun x hx => hbf x (by simp [hx])) (by simpa using hlast)
    unfold pySplitlines at hrec
    rw [hrec]
    simp

/-! ### Per-line and whole-text behaviour -/

theorem processLine_clean {alts : List (Word × Word)} {known : List Word}
    {forced : Bool} {line : Word}
    (h : ∀ item ∈ splitWords line, isSpecialWord alts item = false) :
    processLine alts known forced line = Except.ok line := by
  unfold processLine
  rw [listMapE_id (fun item hit => processItem_not_special (h item hit))]
  dsimp only [Bind.bind, Except.bind]
  rw [splitWords_flatten]

theorem restore_clean {sm : List (Word × Word)} {known : List Word} {forced : Bool}
    {ls : List Word}
    (hbf : ∀ l ∈ ls, ∀ c ∈ l, isLineBreak c = false)
    (hlast : ls.getLast? ≠ some [])
    (hclean : ∀ l ∈ ls, ∀ item ∈ splitWords l, isSpecialWord (mapAlts sm) item = false) :
    restore sm known forced (List.intercalate ['\n'] ls)
      = Except.ok (List.intercalate ['\n'] ls) := by
  unfold restore
  dsimp only
  rw [pySplitlines_intercalate ls hbf hlast]
  rw [listMapE_id (fun l hl => processLine_clean (hclean l hl))]
  dsimp only [Bind.bind, Except.bind]

theorem processItem_dict_total (alts : List (Word × Word)) (known : List Word)
    (item : Word) : ∃ w, processItem alts known false item = Except.ok w := by
  cases hsp : isSpecialWord alts item with
  | false => exact ⟨item, processItem_not_special hsp⟩
  | true =>
    rw [processItem_dict hsp]
    cases hleg : (legalCandidates alts known item).isEmpty with
    | true => exact ⟨item, by rw [if_pos rfl]⟩
    | false =>
      rw [if_neg (by simp)]
      exact represent_ok_of_ne_nil (by simpa using hleg)

theorem processItem_forced_total {alts : List (Word × Word)} (known : List Word)
    {item : Word}
    (hk : isSpecialWord alts item = true → spanMapKeys (buildSpanMap alts item) ≠ [])
    (hletters : ∀ lp ∈ alts, (lp : Word × Word).1 ≠ []) :
    ∃ w, processItem alts known true item = Except.ok w := by
  cases hsp : isSpecialWord alts item with
  | false => exact ⟨item, processItem_not_special hsp⟩
  | true => exact ⟨_, processItem_forced hsp (hk hsp) hletters⟩

theorem processLine_total {alts : List (Word × Word)} {known : List Word}
    {forced : Bool} {line : Word}
    (hk : forced = true → ∀ item ∈ splitWords line,
      isSpecialWord alts item = true → spanMapKeys (buildSpanMap alts item) ≠ [])
    (hletters : forced = true → ∀ lp ∈ alts, (lp : Word × Word).1 ≠ []) :
    ∃ w, processLine alts known forced line = Except.ok w := by
  unfold processLine
  have hitems : ∀ item ∈ splitWords line,
      ∃ w, processItem alts known forced item = Except.ok w := by
    intro item hit
    cases forced with
    | false => exact processItem_dict_total alts known item
    | true => exact processItem_forced_total known (hk rfl item hit) (hletters rfl)
  rcases listMapE_ok_exists hitems with ⟨ys, hys⟩
  refine ⟨ys.flatten, ?_⟩
  rw [hys]
  rfl

/-- Totality of `restore`.  Dictionary mode needs no side condition at all; in
forced mode every special word token must actually have a found span (and the
special letters must be nonempty), otherwise `distinct_highest_element` raises
`IndexError` on the empty combination list (see `c1_failing_eval`). -/
theorem restore_total {sm : List (Word × Word)} {known : List Word} {forced : Bool}
    {text : Word}
    (hk : forced = true → ∀ line ∈ pySplitlines text, ∀ item ∈ splitWords line,
      isSpecialWord (mapAlts sm) item = true →
        spanMapKeys (buildSpanMap (mapAlts sm) item) ≠ [])
    (hletters : forced = true → ∀ lp ∈ mapAlts sm, (lp : Word × Word).1 ≠ []) :
    ∃ out, restore sm known forced text = Except.ok out := by
  unfold restore
  dsimp only
  have hlines : ∀ line ∈ pySplitlines text,
      ∃ w, processLine (mapAlts sm) known forced line = Except.ok w := by
    intro line hline
    exact processLine_total (fun hf => hk hf line hline) hletters
  rcases listMapE_ok_exists hlines with ⟨ys, hys⟩
  refine ⟨List.intercalate ['\n'] ys, ?_⟩
  rw [hys]
  rfl

/-! ### Two-span composition of the substitutor -/

theorem pySorted_singleton (le : Span → Span → Bool) (a : Span) :
    pySorted le [a] = [a] := rfl

theorem pySorted_pair_of_not_le {le : Span → Span → Bool} {a b : Span}
    (h : le a b = false) : pySorted le [a, b] = [b, a] := by
  simp [pySorted, pyInsert, h]

theorem substitute_spans_single {string : Word} {m : List (Span × Word)} {sp : Span}
    {v : Word} (hv : lookupSpan m sp = some v) :
    substitute_spans string [sp] m
      = Except.ok (string.take sp.1 ++ v ++ string.drop sp.2) := by
  unfold substitute_spans
  rw [pySorted_singleton, List.foldlM_cons, hv]
  rfl

theorem substitute_spans_pair {string : Word} {m : List (Span × Word)}
    {s1 e1 s2 e2 : Nat} (hlt : s1 < e1) (hsep : e1 ≤ s2)
    (k1 : (s1, e1) ∈ spanMapKeys m) (k2 : (s2, e2) ∈ spanMapKeys m) :
    substitute_spans string [(s1, e1), (s2, e2)] m
      = (substitute_spans string [(s2, e2)] m).bind
          (fun t => substitute_spans t [(s1, e1)] m) := by
  rcases Option.isSome_iff_exists.mp (lookupSpan_isSome_iff.mpr k1) with ⟨v1, hv1⟩
  rcases Option.isSome_iff_exists.mp (lookupSpan_isSome_iff.mpr k2) with ⟨v2, hv2⟩
  have hle : spanDescB (s1, e1) (s2, e2) = false := by
    simp only [spanDescB]
    have h1 : ¬ (s2 < s1) := by omega
    have h2 : ¬ (s2 = s1) := by omega
    simp [h1, h2]
  rw [substitute_spans_single hv2]
  show _ = substitute_spans (string.take s2 ++ v2 ++ string.drop e2) [(s1, e1)] m
  rw [substitute_spans_single hv1]
  unfold substitute_spans
  rw [pySorted_pair_of_not_le hle]
  rw [List.foldlM_cons, hv2]
  show (Except.ok (string.take s2 ++ v2 ++ string.drop e2) >>= _) = _
  dsimp only [Bind.bind, Except.bind]
  rw [List.foldlM_cons, hv1]
  rfl

/-! ### The unique maximal combination -/

theorem filter_eq_singleton_of_unique {α : Type} [DecidableEq α] {p : α → Bool} :
    ∀ {L : List α} {m : α}, L.Nodup → m ∈ L → (∀ x ∈ L, p x = true ↔ x = m) →
      L.filter p = [m]
  | [], m, _, hm, _ => absurd hm (by simp)
  | a :: L', m, hnd, hm, hp => by
    rcases List.nodup_cons.mp hnd with ⟨ha, hnd'⟩
    by_cases ham : a = m
    · subst ham
      rw [List.filter_cons_of_pos (by rw [hp a (by simp)])]
      have hrest : L'.filter p = [] := by
        rw [List.filter_eq_nil_iff]
        intro x hx
        intro hpx
        have := (hp x (by simp [hx])).mp hpx
        subst this
        exact ha hx
      rw [hrest]
    · have hm' : m ∈ L' := by
        rcases List.mem_cons.mp hm with rfl | hm'
        · exact absurd rfl ham
        · exact hm'
      rw [List.filter_cons_of_neg]
      · exact filter_eq_singleton_of_unique hnd' hm' (fun x hx => hp x (by simp [hx]))
      · rw [hp a (by simp)]
        simp [ham]

theorem filter_max_combinations {l : List Span} (hne : l ≠ []) (hnd : l.Nodup) :
    (combinations_any_length l).filter (fun c => c.length == l.length) = [l] := by
  apply filter_eq_singleton_of_unique
  · exact nodup_combinations_any_length hnd
  · exact self_mem_combinations_any_length hne
  · intro x hx
    rcases mem_combinations_any_length.mp hx with ⟨hs, _⟩
    constructor
    · intro hlen
      exact hs.eq_of_length (by simpa using hlen)
    · rintro rfl
      simp

/-! ### Dictionary-mode candidates -/

theorem wordCandidates_ne_nil_map {alts : List (Word × Word)} {item : Word}
    (h : wordCandidates alts item ≠ []) : buildSpanMap alts item ≠ [] := by
  intro hmap
  apply h
  unfold wordCandidates
  rw [hmap]
  rfl

theorem legal_ne_nil_special {alts : List (Word × Word)} {known : List Word} {item : Word}
    (hwf : ∀ lp ∈ alts, ∀ c ∈ (lp : Word × Word).2, c ∈ asciiLowers)
    (hword : isWordTok item = true)
    (hleg : legalCandidates alts known item ≠ []) : isSpecialWord alts item = true := by
  apply isSpecialWord_of_map_ne_nil hwf hword
  apply wordCandidates_ne_nil_map
  intro hwc
  apply hleg
  unfold legalCandidates
  rw [hwc]
  rfl

/-! ### The claims -/

/-- C1: the claim states that restoration always runs to completion in both
modes and that no word token aborts the processing of the rest of the text.
The code violates this: in forced mode the word "Buße" passes the casefold
pre-check (its casefold "busse" contains the pattern "ss") but the span finder
matches nothing (the regex cannot match "ss" against the single character 'ß'),
so the combination list is empty and `distinct_highest_element` raises
`IndexError` from `iterable[-1]`, aborting the whole restoration.  This
theorem evaluates the model at that failing input. -/
theorem c1_forced_mode_crash_eval :
    restore germanMap [] true (String.toList "Buße") = Except.error PyErr.indexError := rfl

/-- C2: for a duplicate-free span list the Combination Generator yields exactly
`2^N - 1` combinations, pairwise distinct, each a non-empty subset of the
spans, in non-decreasing subset size, and yields nothing for `N = 0`. -/
theorem c2_combination_generator (spans : List Span) (h : spans.Nodup) :
    (combinations_any_length spans).length = 2 ^ spans.length - 1 ∧
    (combinations_any_length spans).Nodup ∧
    (∀ c ∈ combinations_any_length spans, c ≠ [] ∧ c.Sublist spans) ∧
    List.Sorted (fun a b => a ≤ b) ((combinations_any_length spans).map List.length) ∧
    (spans = [] → combinations_any_length spans = []) := by
  refine ⟨length_combinations_any_length spans, nodup_combinations_any_length h, ?_,
    sizes_sorted_combinations_any_length spans, ?_⟩
  · intro c hc
    rcases mem_combinations_any_length.mp hc with ⟨hs, hne⟩
    exact ⟨hne, hs⟩
  · rintro rfl
    rfl

/-- C2 witness: the two spans of "Abenteuerbuecher" give `2^2 - 1 = 3`
combinations. -/
theorem c2_combination_generator_witness :
    ([((0 : Nat), (2 : Nat)), ((6 : Nat), (8 : Nat))] : List Span).Nodup ∧
    (combinations_any_length
        ([((0 : Nat), (2 : Nat)), ((6 : Nat), (8 : Nat))] : List Span)).length = 2 ^ 2 - 1 :=
  ⟨by decide,
    by simpa using
      (c2_combination_generator [((0 : Nat), (2 : Nat)), ((6 : Nat), (8 : Nat))] (by decide)).1⟩

/-- C3: the Span Substitutor applies spans from the rightmost start index
leftward, splicing each replacement between the text before the span start and
the text from the span end; for non-overlapping spans the two-span application
equals the composition of the single-span applications, and on "ueberfuehrt"
the spec §8 example values are produced. -/
theorem c3_span_substitutor :
    (∀ (string : Word) (m : List (Span × Word)) (s1 e1 s2 e2 : Nat),
        s1 < e1 → e1 ≤ s2 → (s1, e1) ∈ spanMapKeys m → (s2, e2) ∈ spanMapKeys m →
        substitute_spans string [(s1, e1), (s2, e2)] m
          = (substitute_spans string [(s2, e2)] m).bind
              (fun t => substitute_spans t [(s1, e1)] m)) ∧
    substitute_spans (String.toList "ueberfuehrt") [(0, 2)] umlautExampleMap
      = Except.ok (String.toList "überfuehrt") ∧
    substitute_spans (String.toList "ueberfuehrt") [(0, 2), (6, 8)] umlautExampleMap
      = Except.ok (String.toList "überführt") :=
  ⟨fun _ _ _ _ _ _ h1 h2 k1 k2 => substitute_spans_pair h1 h2 k1 k2, rfl, rfl⟩

/-- C3 witness: composing the example spans on "ueberfuehrt". -/
theorem c3_span_substitutor_witness :
    substitute_spans (String.toList "ueberfuehrt") [(0, 2), (6, 8)] umlautExampleMap
      = (substitute_spans (String.toList "ueberfuehrt") [(6, 8)] umlautExampleMap).bind
          (fun t => substitute_spans t [(0, 2)] umlautExampleMap) :=
  c3_span_substitutor.1 (String.toList "ueberfuehrt") umlautExampleMap 0 2 6 8
    (by decide) (by decide) (by decide) (by decide)

/-- C4: in forced mode, a word token with at least one found span is replaced
by the candidate obtained by substituting at every found span — the unique
combination of maximal size — independently of the dictionary (`known` is
arbitrary and does not occur in the result). -/
theorem c4_forced_mode_max_substitution (alts : List (Word × Word)) (known : List Word)
    (item : Word) (hword : isWordTok item = true) (hwf : wfAlts alts)
    (hspans : buildSpanMap alts item ≠ []) :
    processItem alts known true item =
      Except.ok (substituteTotal item (spanMapKeys (buildSpanMap alts item))
        (buildSpanMap alts item)) := by
  have hpat : ∀ lp ∈ alts, ∀ c ∈ (lp : Word × Word).2, c ∈ asciiLowers :=
    fun lp hlp => (hwf lp hlp).2
  have hlet : ∀ lp ∈ alts, (lp : Word × Word).1 ≠ [] := fun lp hlp => (hwf lp hlp).1
  have hsp := isSpecialWord_of_map_ne_nil hpat hword hspans
  have hkeys : spanMapKeys (buildSpanMap alts item) ≠ [] := by
    intro hcon
    exact hspans (List.map_eq_nil_iff.mp hcon)
  exact processItem_forced hsp hkeys hlet

/-- C4 witness: forced mode turns "Abenteuer" into "Abenteür" with an empty
dictionary. -/
theorem c4_forced_mode_max_substitution_witness :
    processItem germanAlts [] true (String.toList "Abenteuer")
      = Except.ok (String.toList "Abenteür") := by
  rw [c4_forced_mode_max_substitution germanAlts [] (String.toList "Abenteuer")
    (by decide) (by unfold wfAlts; decide) (by decide)]
  rfl

/-- C5: in dictionary mode a candidate is legal exactly when it or its
lowercased form is a member of the known words; if every candidate is illegal
the token is emitted unchanged. -/
theorem c5_dictionary_fallback_unchanged (alts : List (Word × Word)) (known : List Word)
    (item : Word)
    (h : ∀ c ∈ wordCandidates alts item, ¬(c ∈ known ∨ pyLowerStr c ∈ known)) :
    processItem alts known false item = Except.ok item := by
  cases hsp : isSpecialWord alts item with
  | false => exact processItem_not_special hsp
  | true =>
    rw [processItem_dict hsp]
    have hleg : legalCandidates alts known item = [] := by
      unfold legalCandidates
      rw [List.filter_eq_nil_iff]
      intro c hc
      have hcc := h c hc
      rw [not_or] at hcc
      simp only [Bool.or_eq_true]
      rintro (hmem | hmem)
      · exact hcc.1 (by simpa using hmem)
      · exact hcc.2 (by simpa using hmem)
    rw [hleg]
    rfl

/-- C5 witness: "Abenteuer" with an empty dictionary stays unchanged (its only
candidate "Abenteür" is illegal). -/
theorem c5_dictionary_fallback_unchanged_witness :
    processItem germanAlts [] false (String.toList "Abenteuer")
      = Except.ok (String.toList "Abenteuer") :=
  c5_dictionary_fallback_unchanged germanAlts [] (String.toList "Abenteuer") (by decide)

/-- C6 counterexample: the claim promises byte-for-byte identity on clean text
with the original line separator preserved, but the code rejoins lines with
'\n' unconditionally: the clean input "a\r\nb" comes back as "a\nb". -/
theorem c6_counterexample_crlf :
    restore germanMap [] false (String.toList "a\r\nb")
        = Except.ok (String.toList "a\nb")
      ∧ String.toList "a\nb" ≠ String.toList "a\r\nb" :=
  ⟨rfl, by decide⟩

/-- C6 (amended): on text whose line separators are all single '\n' characters
with none at the end (text = lines joined by '\n', lines break-free, last line
nonempty) and whose word tokens all fail the special-letter pre-check,
restoration returns the text unchanged, in either mode. -/
theorem c6_clean_text_roundtrip (sm : List (Word × Word)) (known : List Word)
    (forced : Bool) (ls : List Word)
    (hbf : ∀ l ∈ ls, ∀ c ∈ l, isLineBreak c = false)
    (hlast : ls.getLast? ≠ some [])
    (hclean : ∀ l ∈ ls, ∀ item ∈ splitWords l, isSpecialWord (mapAlts sm) item = false) :
    restore sm known forced (List.intercalate ['\n'] ls)
      = Except.ok (List.intercalate ['\n'] ls) :=
  restore_clean hbf hlast hclean

/-- C6 witness: a clean two-line German text is returned unchanged. -/
theorem c6_clean_text_roundtrip_witness :
    restore germanMap [] false
        (List.intercalate ['\n']
          [String.toList "Das ist Text.", String.toList "Zweite Zeile!"])
      = Except.ok
          (List.intercalate ['\n']
            [String.toList "Das ist Text.", String.toList "Zweite Zeile!"]) :=
  c6_clean_text_roundtrip germanMap [] false
    [String.toList "Das ist Text.", String.toList "Zweite Zeile!"]
    (by decide) (by decide) (by decide)

/-- C7: concatenating the tokens of a line unmodified reproduces the line; a
non-word token is always processed to itself; and in any successful line
result the tokens at non-word positions are preserved verbatim in place. -/
theorem c7_nonword_preservation (alts : List (Word × Word)) (known : List Word)
    (forced : Bool) (line : Word) :
    (splitWords line).flatten = line ∧
    (∀ item ∈ splitWords line, isWordTok item = false →
      processItem alts known forced item = Except.ok item) ∧
    (∀ out, processLine alts known forced line = Except.ok out →
      ∃ processed : List Word, out = processed.flatten ∧
        processed.length = (splitWords line).length ∧
        ∀ i (hi : i < (splitWords line).length) (hi2 : i < processed.length),
          isWordTok ((splitWords line).get ⟨i, hi⟩) = false →
            processed.get ⟨i, hi2⟩ = (splitWords line).get ⟨i, hi⟩) := by
  refine ⟨splitWords_flatten line, ?_, ?_⟩
  · intro item _ hw
    apply processItem_not_special
    unfold isSpecialWord
    rw [hw]
    rfl
  · intro out hout
    unfold processLine at hout
    cases hys : listMapE (processItem alts known forced) (splitWords line) with
    | error e =>
      rw [hys] at hout
      exact absurd hout (by simp [Bind.bind, Except.bind])
    | ok ys =>
      rw [hys] at hout
      have hout2 : Except.ok (ε := PyErr) ys.flatten = Except.ok out := hout
      refine ⟨ys, (Except.ok.inj hout2).symm, listMapE_ok_length hys, ?_⟩
      intro i hi hi2 hw
      have hget := listMapE_ok_get hys i hi hi2
      rw [processItem_not_special ?_] at hget
      · exact (Except.ok.inj hget).symm
      · unfold isSpecialWord
        rw [hw]
        rfl

/-- C7 witness: "Hallo, Welt!" reconstructs from its tokens and the non-word
token ", " passes through unchanged. -/
theorem c7_nonword_preservation_witness :
    (splitWords (String.toList "Hallo, Welt!")).flatten = String.toList "Hallo, Welt!"
      ∧ processItem germanAlts [] false [',', ' '] = Except.ok [',', ' '] :=
  ⟨(c7_nonword_preservation germanAlts [] false (String.toList "Hallo, Welt!")).1,
    (c7_nonword_preservation germanAlts [] false (String.toList "Hallo, Welt!")).2.1
      [',', ' '] (by decide) (by decide)⟩

/-- C8 counterexample: the pre-check is not equivalent to span-finder matching.
For the word "Buße" the pre-check fires (casefold "busse" contains "ss") even
though no pattern has a case-insensitive match anywhere in the token. -/
theorem c8_counterexample_eszett :
    isSpecialWord germanAlts (String.toList "Buße") = true
      ∧ ∀ lp ∈ germanAlts, finditer lp.2 (String.toList "Buße") = [] := by
  decide

/-- C8 (amended): one direction of the claimed equivalence holds — whenever
some pattern has a case-insensitive match in a word token, the fast pre-check
fires; the converse fails (see the counterexample). -/
theorem c8_precheck_implied_by_match (alts : List (Word × Word)) (item : Word)
    (hwf : wfAlts alts) (hword : isWordTok item = true)
    (hmatch : ∃ lp ∈ alts, finditer (lp : Word × Word).2 item ≠ []) :
    isSpecialWord alts item = true := by
  unfold isSpecialWord
  rw [hword, Bool.true_and]
  rcases hmatch with ⟨lp, hlp, hfi⟩
  rw [List.any_eq_true]
  exact ⟨lp, hlp, cf_contains_of_finditer ((hwf lp hlp).2) hfi⟩

/-- C8 witness: "schoen" has an "oe" match, so the pre-check fires. -/
theorem c8_precheck_implied_by_match_witness :
    isSpecialWord germanAlts (String.toList "schoen") = true :=
  c8_precheck_implied_by_match germanAlts (String.toList "schoen")
    (by unfold wfAlts; decide) (by decide)
    ⟨(['ö'], ['o', 'e']), by decide, by decide⟩

/-- C9: in dictionary mode one legal candidate is used as-is, and two or more
legal candidates are joined with "|" and wrapped in "[", "]". -/
theorem c9_selector_representation (alts : List (Word × Word)) (known : List Word)
    (item : Word) (hword : isWordTok item = true) (hwf : wfAlts alts) :
    (∀ c, legalCandidates alts known item = [c] →
      processItem alts known false item = Except.ok c) ∧
    (∀ c₁ c₂ cs, legalCandidates alts known item = c₁ :: c₂ :: cs →
      processItem alts known false item =
        Except.ok
          (['['] ++ List.intercalate ['|'] (legalCandidates alts known item) ++ [']'])) := by
  have hpat : ∀ lp ∈ alts, ∀ c ∈ (lp : Word × Word).2, c ∈ asciiLowers :=
    fun lp hlp => (hwf lp hlp).2
  constructor
  · intro c hc
    have hsp := legal_ne_nil_special hpat hword (by rw [hc]; simp)
    rw [processItem_dict hsp, hc]
    rw [if_neg (by simp)]
    exact represent_one c
  · intro c₁ c₂ cs hc
    have hsp := legal_ne_nil_special hpat hword (by rw [hc]; simp)
    rw [processItem_dict hsp, hc]
    rw [if_neg (by simp)]
    rw [represent_many c₁ c₂ cs]
    rw [← hc]
    rfl

/-- C9 witness: "fuesse" with known words "füsse" and "füße" yields the
ambiguity representation "[füsse|füße]". -/
theorem c9_selector_representation_witness :
    processItem germanAlts [String.toList "füsse", String.toList "füße"] false
        (String.toList "fuesse")
      = Except.ok (String.toList "[füsse|füße]") := by
  rw [(c9_selector_representation germanAlts
      [String.toList "füsse", String.toList "füße"]
      (String.toList "fuesse") (by decide) (by unfold wfAlts; decide)).2
    (String.toList "füsse") (String.toList "füße") [] (by rfl)]
  rfl

/-- C10: a nonempty duplicate-free span list yields exactly one combination of
maximal size — the full span list — and `distinct_highest_element` with
`key=len` over all combinations returns it (never the tied/`None` outcome and
never an `IndexError`), so the subsequent assertions cannot fail. -/
theorem c10_unique_max_combination (spans : List Span) (h1 : spans ≠ [])
    (h2 : spans.Nodup) :
    ((combinations_any_length spans).filter (fun c => c.length == spans.length))
        = [spans] ∧
    distinct_highest_element List.length (combinations_any_length spans)
      = Except.ok (some spans) :=
  ⟨filter_max_combinations h1 h2, dhe_combinations h1 h2⟩

/-- C10 witness: the spans of "Abenteuerbuecher". -/
theorem c10_unique_max_combination_witness :
    ((combinations_any_length
        ([((6 : Nat), (8 : Nat)), ((10 : Nat), (12 : Nat))] : List Span)).filter
        (fun c => c.length == 2)) = [[((6 : Nat), (8 : Nat)), ((10 : Nat), (12 : Nat))]] ∧
    distinct_highest_element List.length
        (combinations_any_length
          ([((6 : Nat), (8 : Nat)), ((10 : Nat), (12 : Nat))] : List Span))
      = Except.ok (some [((6 : Nat), (8 : Nat)), ((10 : Nat), (12 : Nat))]) := by
  have := c10_unique_max_combination [((6 : Nat), (8 : Nat)), ((10 : Nat), (12 : Nat))]
    (by decide) (by decide)
  simpa using this
